import Mathlib

/-!
Shallow embedding of keepc (src/main.rs), a JSON-backed command-snippet
manager, together with proofs about its search, selection, persistence,
bulk-edit and execution logic.

Rust strings are modelled as lists of unicode scalar values (Lean `Char`);
the `HashMap<String, String>` command store is modelled as an association
list whose key component is unique.
-/

namespace Keepc

/-- Model of a Rust `String` / `&str`: a list of unicode scalar values. -/
abbrev RStr := List Char

/-- Model of Rust `char::is_whitespace`: the Unicode White_Space property
(25 code points). -/
def isWS (c : Char) : Bool :=
  let n := c.toNat
  (0x09 ≤ n && n ≤ 0x0D) || n == 0x20 || n == 0x85 || n == 0xA0 || n == 0x1680 ||
  (0x2000 ≤ n && n ≤ 0x200A) || n == 0x2028 || n == 0x2029 || n == 0x202F ||
  n == 0x205F || n == 0x3000

/-- Model of Rust `str::trim`: drop leading and trailing whitespace. -/
def rustTrim (s : RStr) : RStr :=
  ((s.dropWhile isWS).reverse.dropWhile isWS).reverse

/-- Word-splitting loop: `acc` holds the characters of the word currently
being read, in reverse order. -/
def splitWSGo : RStr → RStr → List RStr
  | [], acc => if acc.isEmpty then [] else [acc.reverse]
  | c :: rest, acc =>
    if isWS c then
      if acc.isEmpty then splitWSGo rest [] else acc.reverse :: splitWSGo rest []
    else splitWSGo rest (c :: acc)

/-- Model of Rust `str::split_whitespace`: the whitespace-separated words of a
string, with empty words skipped. -/
def splitWS (s : RStr) : List RStr := splitWSGo s []

/-- Model of Rust `char` lowercasing as used by `str::to_lowercase`
(ASCII-exact; multi-character Unicode lowercasings are abstracted to the
identity, which none of the proved properties depend on). -/
def charLower (c : Char) : Char :=
  if 'A' ≤ c && c ≤ 'Z' then Char.ofNat (c.toNat + 32) else c

/-- Model of Rust `str::to_lowercase`. -/
def lowerStr (s : RStr) : RStr := s.map charLower

/-- Model of Rust `str::contains(needle)`: substring test. -/
def rcontains (hay needle : RStr) : Bool := decide (needle <:+: hay)

/-- Model of the `CommandStore` struct of src/main.rs: the
`HashMap<String, String>` is an association list with unique keys. -/
structure CommandStore where
  commands : List (RStr × RStr)
deriving DecidableEq

/-- Model of `search_logic` (src/main.rs lines 103-118): split the pattern on
whitespace, keep every entry for which the number of keywords occurring
case-insensitively in the command text or in the description equals the total
number of keywords, and return the command texts. -/
def search_logic (pattern : RStr) (store : CommandStore) : List RStr :=
  let keywords := splitWS pattern
  (store.commands.filter (fun e =>
      (keywords.filter (fun kw =>
          rcontains (lowerStr e.1) (lowerStr kw)
            || rcontains (lowerStr e.2) (lowerStr kw))).length
        == keywords.length)).map (fun e => e.1)

/-- Number of values of Rust's 64-bit `usize`. -/
def USIZE : Nat := 2 ^ 64

/-- Model of Rust `str::parse::<usize>()`: an optional leading plus sign, at
least one ASCII digit, and the value must fit in `usize`. -/
def parseUsize (s : RStr) : Option Nat :=
  let digits := match s with
    | '+' :: r => r
    | r => r
  if digits.isEmpty then none
  else if digits.all (fun c => '0' ≤ c && c ≤ '9') then
    let v := digits.foldl (fun a c => a * 10 + (c.toNat - '0'.toNat)) 0
    if v < USIZE then some v else none
  else none

/-- Release-mode semantics of the Rust expression `choice - 1` on `usize`:
wrapping subtraction (for `choice = 0` this yields `USIZE - 1`, and the
subsequent bounds-checked indexing panics; debug mode panics already at the
subtraction, reaching the same panic outcome). -/
def usizeSub1 (choice : Nat) : Nat := (choice + (USIZE - 1)) % USIZE

/-! ### Persistence: the serde_json serialization used by `CommandStore::save`
and the parsing used by `CommandStore::load` (src/main.rs lines 24-44).
The serializer follows `serde_json::to_writer_pretty` byte for byte on the
`CommandStore` shape; the parser is a recursive-descent JSON reader for that
shape (a top-level object with the single field `commands` holding an object
of string values, as the tool itself persists). -/

/-- Lower-case hex digit, as serde_json prints in `\u00XY` escapes. -/
def hexDigit (n : Nat) : Char :=
  if n < 10 then Char.ofNat ('0'.toNat + n) else Char.ofNat ('a'.toNat + (n - 10))

/-- serde_json escaping of one string character: quote and backslash get a
backslash escape, control characters get their short escape or `\u00XY`, and
every other scalar value is written raw. -/
def escChar (c : Char) : RStr :=
  if c = '\"' then ['\\', '\"']
  else if c = '\\' then ['\\', '\\']
  else if c.toNat < 0x20 then
    if c.toNat = 0x08 then ['\\', 'b']
    else if c.toNat = 0x09 then ['\\', 't']
    else if c.toNat = 0x0A then ['\\', 'n']
    else if c.toNat = 0x0C then ['\\', 'f']
    else if c.toNat = 0x0D then ['\\', 'r']
    else ['\\', 'u', '0', '0', hexDigit (c.toNat / 16), hexDigit (c.toNat % 16)]
  else [c]

/-- serde_json escaping of a whole string body. -/
def escStr : RStr → RStr
  | [] => []
  | c :: rest => escChar c ++ escStr rest

/-- A JSON string literal: quoted escaped body. -/
def quoteStr (s : RStr) : RStr := '\"' :: escStr s ++ ['\"']

/-- Pretty-printed body of one map entry, `"key": "value"`. -/
def serEntryBody (e : RStr × RStr) : RStr := quoteStr e.1 ++ ':' :: ' ' :: quoteStr e.2

/-- Second and later map entries, each preceded by `,\n` and the level-2
indent, as serde_json's pretty formatter emits them. -/
def serMembersRest : List (RStr × RStr) → RStr
  | [] => []
  | e :: es => ',' :: '\n' :: "    ".data ++ serEntryBody e ++ serMembersRest es

/-- The pretty-printed inner object holding the command map. -/
def serObjInner : List (RStr × RStr) → RStr
  | [] => ['\x7b', '\x7d']
  | e :: es =>
    '\x7b' :: '\n' :: "    ".data ++ serEntryBody e ++ serMembersRest es
      ++ '\n' :: "  ".data ++ ['\x7d']

/-- Model of `serde_json::to_writer_pretty` applied to a `CommandStore`
(src/main.rs line 42). -/
def serializeStore (store : CommandStore) : RStr :=
  '\x7b' :: '\n' :: "  ".data ++ quoteStr "commands".data
    ++ ':' :: ' ' :: serObjInner store.commands ++ '\n' :: ['\x7d']

/-- JSON insignificant whitespace. -/
def isJWS (c : Char) : Bool := c = ' ' || c = '\t' || c = '\n' || c = '\r'

/-- Skip insignificant JSON whitespace. -/
def skipWs (s : RStr) : RStr := s.dropWhile isJWS

/-- Single-character JSON string escapes. -/
def escCharInv (e : Char) : Option Char :=
  if e = '\"' then some '\"'
  else if e = '\\' then some '\\'
  else if e = '/' then some '/'
  else if e = 'b' then some '\x08'
  else if e = 'f' then some '\x0C'
  else if e = 'n' then some '\n'
  else if e = 'r' then some '\r'
  else if e = 't' then some '\t'
  else none

/-- Value of one hex digit (decimal digits, then the lower-case and the
upper-case letter ranges). -/
def hexVal (c : Char) : Option Nat :=
  let n := c.toNat
  if 0x30 ≤ n ∧ n ≤ 0x39 then some (n - 0x30)
  else if 0x61 ≤ n ∧ n ≤ 0x66 then some (n - 0x57)
  else if 0x41 ≤ n ∧ n ≤ 0x46 then some (n - 0x37)
  else none

/-- Parse the body of a JSON string literal (the opening quote already
consumed), returning the decoded string and the remaining input. Surrogate
`\u` escapes are rejected (the model omits surrogate-pair decoding, which the
serializer never produces). -/
def parseJString : RStr → Option (RStr × RStr)
  | [] => none
  | c :: rest =>
    if c = '\"' then some ([], rest)
    else if c = '\\' then
      match rest with
      | [] => none
      | e :: rest2 =>
        if e = 'u' then
          match rest2 with
          | h1 :: h2 :: h3 :: h4 :: rest3 =>
            match hexVal h1, hexVal h2, hexVal h3, hexVal h4 with
            | some a, some b, some x, some y =>
              let v := ((a * 16 + b) * 16 + x) * 16 + y
              if 0xD800 ≤ v && v ≤ 0xDFFF then none
              else
                match parseJString rest3 with
                | some (out, r) => some (Char.ofNat v :: out, r)
                | none => none
            | _, _, _, _ => none
          | _ => none
        else
          match escCharInv e with
          | none => none
          | some ch =>
            match parseJString rest2 with
            | some (out, r) => some (ch :: out, r)
            | none => none
    else if c.toNat < 0x20 then none
    else
      match parseJString rest with
      | some (out, r) => some (c :: out, r)
      | none => none

/-- Parse one or more `"key": "value"` members separated by commas, up to and
including the closing brace of the object. The fuel argument only serves
termination; callers pass more fuel than the input length, which a successful
parse can never exhaust since every member consumes input. -/
def parseMembersF : Nat → RStr → Option (List (RStr × RStr) × RStr)
  | 0, _ => none
  | fuel + 1, s =>
    match s with
    | '\"' :: r1 =>
      match parseJString r1 with
      | none => none
      | some (key, r2) =>
        match skipWs r2 with
        | ':' :: r3 =>
          match skipWs r3 with
          | '\"' :: r4 =>
            match parseJString r4 with
            | none => none
            | some (val, r5) =>
              match skipWs r5 with
              | ',' :: r6 =>
                match parseMembersF fuel (skipWs r6) with
                | some (more, rem) => some ((key, val) :: more, rem)
                | none => none
              | '\x7d' :: r6 => some ([(key, val)], r6)
              | _ => none
          | _ => none
        | _ => none
    | _ => none

/-- Parse a JSON object whose values are strings. -/
def parseObjVal (s : RStr) : Option (List (RStr × RStr) × RStr) :=
  match s with
  | '\x7b' :: r =>
    match skipWs r with
    | '\x7d' :: r2 => some ([], r2)
    | r2 => parseMembersF (r2.length + 1) r2
  | _ => none

/-- Parse the persisted document: an object with the single field `commands`
holding an object of string values, followed by end of input. This is the
shape `CommandStore::save` writes; any other document is a parse failure
(surfaced by `load` as the corrupt-store error). -/
def parseStoreRaw (s : RStr) : Option (List (RStr × RStr)) :=
  match skipWs s with
  | '\x7b' :: r1 =>
    match skipWs r1 with
    | '\"' :: r2 =>
      match parseJString r2 with
      | some (key, r3) =>
        if key = "commands".data then
          match skipWs r3 with
          | ':' :: r4 =>
            match parseObjVal (skipWs r4) with
            | some (cmds, r5) =>
              match skipWs r5 with
              | '\x7d' :: r6 => if (skipWs r6).isEmpty then some cmds else none
              | _ => none
            | none => none
          | _ => none
        else none
      | none => none
    | _ => none
  | _ => none

/-- Model of `HashMap::insert`: replace the value of an existing key,
otherwise add the binding. -/
def insertKV (m : List (RStr × RStr)) (k v : RStr) : List (RStr × RStr) :=
  if m.any (fun e => e.1 == k) then
    m.map (fun e => if e.1 == k then (k, v) else e)
  else m ++ [(k, v)]

/-- Parse the persisted document and build the `HashMap` as serde does,
inserting the members in document order. -/
def parseStoreMap (s : RStr) : Option (List (RStr × RStr)) :=
  (parseStoreRaw s).map (List.foldl (fun m e => insertKV m e.1 e.2) [])

/-- The error taxonomy of `CommandStore::load`. -/
inductive LoadError where
  | storeCorrupt
deriving DecidableEq

/-- Model of `CommandStore::load` (src/main.rs lines 24-33). The file system
is a value of type `Option RStr`: `none` when the file does not exist, `some
content` otherwise. A missing file yields the empty store; a file that fails
to parse yields the corrupt-store error. -/
def load (file : Option RStr) : Except LoadError CommandStore :=
  match file with
  | none => .ok ⟨[]⟩
  | some content =>
    match parseStoreMap content with
    | some cmds => .ok ⟨cmds⟩
    | none => .error .storeCorrupt

/-- Model of `CommandStore::save` (src/main.rs lines 35-44): the file after a
save holds exactly the pretty-printed serialization. -/
def save (store : CommandStore) : Option RStr := some (serializeStore store)

/-! ### The delete, execute and edit operations (src/main.rs lines 187-302).
Interactive input (the selector line), the child processes (editor, shell) and
the file system are explicit parameters; a Rust panic is an explicit outcome. -/

/-- Outcome of running a code path that can panic (here: the out-of-bounds
index reached through the unchecked `choice - 1`). -/
inductive RunOutcome (α : Type) where
  | ok (a : α)
  | panicked
deriving DecidableEq

/-- Model of `delete_command` (src/main.rs lines 187-219) after the store is
loaded: search, read the selector line, and on `choice <= len` remove the
entry at index `choice - 1` and save. The returned flag records whether the
store was saved. `choice = 0` passes the guard, the `usize` subtraction wraps,
and the index operation panics. -/
def delete_core (pattern input : RStr) (store : CommandStore) :
    RunOutcome (CommandStore × Bool) :=
  let ms := search_logic pattern store
  if ms.isEmpty then .ok (store, false)
  else
    match parseUsize (rustTrim input) with
    | none => .ok (store, false)
    | some choice =>
      if choice ≤ ms.length then
        match ms[usizeSub1 choice]? with
        | some cmd => .ok (⟨store.commands.filter (fun e => !(e.1 == cmd))⟩, true)
        | none => .panicked
      else .ok (store, false)

/-- Result of `execute_command`: success (with a flag recording whether a
shell child was actually spawned), failure to spawn or wait on the shell, or
the panic reached through `choice = 0`. -/
inductive ExecResult where
  | ok (ran : Bool)
  | errSpawn
  | panicked
deriving DecidableEq

/-- Model of `execute_command` (src/main.rs lines 259-302) after the store is
loaded. `spawn` is the shell collaborator: `none` when spawning or waiting
fails (the only case the source propagates as an error), `some code` when the
child exits with status `code`. The exit status value is dropped by the
source, which returns `Ok(())` regardless. -/
def execute_core (pattern input : RStr) (store : CommandStore)
    (spawn : Option Int) : ExecResult :=
  let ms := search_logic pattern store
  if ms.isEmpty then .ok false
  else
    match parseUsize (rustTrim input) with
    | none => .ok false
    | some choice =>
      if choice ≤ ms.length then
        match ms[usizeSub1 choice]? with
        | some _cmd =>
          match spawn with
          | none => .errSpawn
          | some _code => .ok true
        | none => .panicked
      else .ok false

/-- Model of `execute_command` including its interaction with the store file:
it loads the store and never writes it back. -/
def execute_fs (file : Option RStr) (pattern input : RStr) (spawn : Option Int) :
    Except LoadError ExecResult × Option RStr :=
  match load file with
  | .error e => (.error e, file)
  | .ok store => (.ok (execute_core pattern input store spawn), file)

/-- Split a string on newline characters (the separators themselves dropped;
a trailing newline produces no empty final line). -/
def splitNL : RStr → List RStr
  | [] => []
  | c :: rest =>
    if c = '\n' then [] :: splitNL rest
    else
      match splitNL rest with
      | [] => [[c]]
      | l :: ls => (c :: l) :: ls

/-- Strip one trailing carriage return. -/
def stripCR (l : RStr) : RStr := if l.getLast? = some '\r' then l.dropLast else l

/-- Model of Rust `str::lines`. -/
def rlines (s : RStr) : List RStr := (splitNL s).map stripCR

/-- Boolean prefix test. -/
def startsWith (s pre : RStr) : Bool := decide (pre <+: s)

/-- Model of Rust `str::split_once(delim)` for a non-empty delimiter: split at
the first occurrence of `delim`, or `none` when it does not occur. -/
def splitOnce (delim : RStr) : RStr → Option (RStr × RStr)
  | [] => none
  | c :: rest =>
    if startsWith (c :: rest) delim then some ([], List.drop delim.length (c :: rest))
    else
      match splitOnce delim rest with
      | some (pre, post) => some (c :: pre, post)
      | none => none

/-- Model of the re-parsing loop of `edit_commands` (src/main.rs lines
246-252): each line of the edited file is split on the first `:::`, both
halves are trimmed, and the pair is inserted into a brand-new map; lines
without the delimiter are dropped. -/
def parseEditLines (content : RStr) : List (RStr × RStr) :=
  (rlines content).foldl (fun m line =>
    match splitOnce (':' :: ':' :: ':' :: []) line with
    | some (cd, dd) => insertKV m (rustTrim cd) (rustTrim dd)
    | none => m) []

/-- The error taxonomy of `edit_commands`. -/
inductive EditError where
  | storeCorrupt
  | launchFailed
  | nonZeroExit
deriving DecidableEq

/-- Model of `edit_commands` (src/main.rs lines 221-257). `editorStatus` is
the editor collaborator: `none` when the editor cannot be launched, `some
code` when it exits with status `code`; `edited` is the temporary file's
content after the editor ran. Only when the editor exits with status zero is
the re-parsed map saved over the store file. -/
def edit_fs (file : Option RStr) (editorStatus : Option Int) (edited : RStr) :
    Except EditError Unit × Option RStr :=
  match load file with
  | .error _ => (.error .storeCorrupt, file)
  | .ok _store =>
    match editorStatus with
    | none => (.error .launchFailed, file)
    | some code =>
      if code ≠ 0 then (.error .nonZeroExit, file)
      else (.ok (), save ⟨parseEditLines edited⟩)

/-! ### Helper lemmas -/

/-- Every command returned by the search is a key of the store. -/
theorem mem_search_logic {pattern : RStr} {store : CommandStore} {cmd : RStr}
    (h : cmd ∈ search_logic pattern store) : ∃ d, (cmd, d) ∈ store.commands := by
  simp only [search_logic, List.mem_map, List.mem_filter] at h
  obtain ⟨e, ⟨hmem, _⟩, heq⟩ := h
  refine ⟨e.2, ?_⟩
  have he : (cmd, e.2) = e := by cases e; simp_all
  rw [he]
  exact hmem

/-- Successful `usize` parses fit in `usize`. -/
theorem parseUsize_lt {s : RStr} {v : Nat} (h : parseUsize s = some v) : v < USIZE := by
  simp only [parseUsize] at h
  split at h
  · cases h
  · split at h
    · split at h
      · injection h with h'
        omega
      · cases h
    · cases h

/-- In a list with unique keys, exactly one entry carries a present key. -/
theorem countP_key_eq_one {l : List (RStr × RStr)} {key : RStr}
    (hnd : (l.map Prod.fst).Nodup) (hmem : key ∈ l.map Prod.fst) :
    List.countP (fun e => e.1 == key) l = 1 := by
  induction l with
  | nil => simp at hmem
  | cons a t ih =>
    simp only [List.map_cons, List.nodup_cons] at hnd
    obtain ⟨hna, hnds⟩ := hnd
    simp only [List.map_cons, List.mem_cons] at hmem
    rw [List.countP_cons]
    cases hmem with
    | inl hkey =>
      subst hkey
      have h0 : List.countP (fun e : RStr × RStr => e.1 == a.1) t = 0 := by
        rw [List.countP_eq_zero]
        intro e he
        simp only [beq_iff_eq]
        intro hc
        exact hna (hc ▸ List.mem_map_of_mem Prod.fst he)
      simp [h0]
    | inr hkey =>
      have hne : ¬(a.1 == key) = true := by
        simp only [beq_iff_eq]
        intro hc
        exact hna (hc ▸ hkey)
      simp [hne, ih hnds hkey]

/-- For a positive choice below `USIZE`, the wrapping decrement is the
ordinary decrement. -/
theorem usizeSub1_of_pos {choice : Nat} (h1 : 1 ≤ choice) (h2 : choice < USIZE) :
    usizeSub1 choice = choice - 1 := by
  simp only [usizeSub1, USIZE] at *
  omega

/-! ### Claim C2 -/

/-- Claim C2, counterexample: on a non-empty store holding the single entry
`ls`, searching with the empty pattern returns that entry, not the empty
match list the claim requires. -/
theorem search_logic_empty_pattern_counterexample :
    (CommandStore.mk [("ls".data, "list".data)]).commands ≠ [] ∧
    search_logic [] (CommandStore.mk [("ls".data, "list".data)]) = ["ls".data] := by
  constructor
  · decide
  · decide

/-- Claim C2, amended: searching with a pattern holding zero
whitespace-separated keywords (the empty pattern in particular) matches every
entry — all zero keywords trivially occur in each entry — so the search
returns every command of the store, not no matches. -/
theorem search_logic_no_keywords_returns_all (pattern : RStr) (store : CommandStore)
    (h : splitWS pattern = []) :
    search_logic pattern store = store.commands.map (fun e => e.1) := by
  simp [search_logic, h, List.filter_true]

/-- Witness for the amended C2: a whitespace-only pattern has zero keywords
and returns the store's only command. -/
theorem search_logic_no_keywords_returns_all_witness :
    splitWS " ".data = [] ∧
    search_logic " ".data (CommandStore.mk [("ls".data, "list".data)]) =
      (CommandStore.mk [("ls".data, "list".data)]).commands.map (fun e => e.1) :=
  ⟨by decide,
    search_logic_no_keywords_returns_all " ".data
      (CommandStore.mk [("ls".data, "list".data)]) (by decide)⟩

/-! ### Claim C3 -/

/-- Claim C3 (code bug): with one matching entry, the selector input `0`
parses as the `usize` 0, passes the `choice <= len` guard of both
`delete_command` and `execute_command`, and then the index `choice - 1`
wraps below zero, so the list indexing panics; the program aborts instead of
silently performing no action as the claim (and spec) require. -/
theorem selector_input_zero_panics :
    delete_core "x".data "0".data (CommandStore.mk [("x".data, [])]) = .panicked ∧
    execute_core "x".data "0".data (CommandStore.mk [("x".data, [])]) (some 0) = .panicked := by
  constructor
  · decide
  · decide

/-! ### Claim C5 -/

/-- Claim C5, counterexample: with one matching entry selected and the shell
child exiting with the non-zero status 1, `execute_command` still returns
success: the exit status is never inspected. -/
theorem execute_nonzero_exit_counterexample :
    execute_core "x".data "1".data (CommandStore.mk [("x".data, [])]) (some 1) = .ok true := by
  decide

/-- Claim C5, amended: `execute_command` reports an error only when spawning
or waiting on the shell fails; the child's exit status is discarded, so the
outcome for a child exiting non-zero is identical to the outcome for a child
exiting zero, and is never an error. -/
theorem execute_ignores_exit_status (pattern input : RStr) (store : CommandStore)
    (code : Int) :
    execute_core pattern input store (some code) ≠ .errSpawn ∧
    execute_core pattern input store (some code) = execute_core pattern input store (some 0) := by
  cases h1 : (search_logic pattern store).isEmpty with
  | true => simp [execute_core, h1]
  | false =>
    cases h2 : parseUsize (rustTrim input) with
    | none => simp [execute_core, h1, h2]
    | some choice =>
      by_cases h3 : choice ≤ (search_logic pattern store).length
      · cases h4 : (search_logic pattern store)[usizeSub1 choice]? with
        | none => simp [execute_core, h1, h2, h3, h4]
        | some cmd => simp [execute_core, h1, h2, h3, h4]
      · simp [execute_core, h1, h2, h3]

/-! ### Claim C6 -/

/-- Claim C6: loading a missing file yields the empty store without error,
and loading an existing file whose content does not parse as the expected
JSON yields the corrupt-store error, never a store value. -/
theorem load_missing_or_corrupt :
    load none = .ok ⟨[]⟩ ∧
    ∀ content : RStr, parseStoreMap content = none →
      load (some content) = .error .storeCorrupt := by
  refine ⟨rfl, fun content h => ?_⟩
  simp [load, h]

/-- Witness for C6: the file content `not json` fails to parse and `load`
surfaces the corrupt-store error on it. -/
theorem load_missing_or_corrupt_witness :
    parseStoreMap "not json".data = none ∧
    load (some "not json".data) = .error .storeCorrupt :=
  ⟨by decide, load_missing_or_corrupt.2 "not json".data (by decide)⟩

/-! ### Claim C8 -/

/-- Claim C8: when the editor exits with a non-zero status, the bulk edit
fails with an error and the store file is not rewritten. -/
theorem edit_nonzero_exit_aborts (file : Option RStr) (code : Int) (edited : RStr)
    (h : code ≠ 0) :
    (edit_fs file (some code) edited).1 ≠ .ok () ∧
    (edit_fs file (some code) edited).2 = file := by
  unfold edit_fs
  cases hl : load file with
  | error e => simp
  | ok s => simp [h]

/-- Witness for C8: editor exit status 1 on a missing store file. -/
theorem edit_nonzero_exit_aborts_witness :
    (1 : Int) ≠ 0 ∧
    (edit_fs none (some 1) []).1 ≠ .ok () ∧
    (edit_fs none (some 1) []).2 = none :=
  ⟨by decide, (edit_nonzero_exit_aborts none 1 [] (by decide)).1,
    (edit_nonzero_exit_aborts none 1 [] (by decide)).2⟩

/-! ### Claim C10 -/

/-- Claim C10: for every file state, pattern, selector input and shell
outcome, `execute_command` leaves the store file exactly as it was: it
performs no insertion, removal or save. -/
theorem execute_never_writes_store (file : Option RStr) (pattern input : RStr)
    (spawn : Option Int) :
    (execute_fs file pattern input spawn).2 = file := by
  unfold execute_fs
  cases h : load file <;> simp

/-! ### Claim C1 -/

/-- Claim C1: for every store with unique keys and every entry of it, the
entry's command text is returned by `search_logic` exactly when every
whitespace-delimited keyword of the pattern is a case-insensitive substring
of the command text or of the description (per keyword OR between the two
fields, AND across keywords). -/
theorem search_logic_mem_iff (pattern : RStr) (store : CommandStore)
    (hnd : (store.commands.map Prod.fst).Nodup) (cmd desc : RStr)
    (hmem : (cmd, desc) ∈ store.commands) :
    cmd ∈ search_logic pattern store ↔
      ∀ kw ∈ splitWS pattern,
        lowerStr kw <:+: lowerStr cmd ∨ lowerStr kw <:+: lowerStr desc := by
  constructor
  · intro h
    simp only [search_logic, List.mem_map, List.mem_filter] at h
    obtain ⟨e, ⟨he, hp⟩, heq⟩ := h
    have he2 : e = (cmd, desc) := List.inj_on_of_nodup_map hnd he hmem heq
    subst he2
    have hp2 : (List.filter (fun kw =>
        rcontains (lowerStr cmd) (lowerStr kw)
          || rcontains (lowerStr desc) (lowerStr kw)) (splitWS pattern)).length
        = (splitWS pattern).length := by
      simp only [beq_iff_eq] at hp
      exact hp
    have hall := List.filter_length_eq_length.mp hp2
    intro kw hkw
    have := hall kw hkw
    simpa [rcontains] using this
  · intro h
    simp only [search_logic, List.mem_map, List.mem_filter]
    refine ⟨(cmd, desc), ⟨hmem, ?_⟩, rfl⟩
    simp only [beq_iff_eq]
    apply List.filter_length_eq_length.mpr
    intro kw hkw
    simpa [rcontains] using h kw hkw

/-- Witness for C1: on a two-entry store, the pattern `git` selects the entry
keyed `git` and the theorem's characterization applies to it. -/
theorem search_logic_mem_iff_witness :
    ((CommandStore.mk [("ls".data, "files".data),
        ("git".data, "repo".data)]).commands.map Prod.fst).Nodup ∧
    ("git".data, "repo".data) ∈ (CommandStore.mk [("ls".data, "files".data),
        ("git".data, "repo".data)]).commands ∧
    ("git".data ∈ search_logic "git".data (CommandStore.mk [("ls".data, "files".data),
        ("git".data, "repo".data)]) ↔
      ∀ kw ∈ splitWS "git".data,
        lowerStr kw <:+: lowerStr "git".data ∨ lowerStr kw <:+: lowerStr "repo".data) :=
  ⟨by decide, by decide,
    search_logic_mem_iff "git".data
      (CommandStore.mk [("ls".data, "files".data), ("git".data, "repo".data)])
      (by decide) "git".data "repo".data (by decide)⟩

/-! ### Claim C4 -/

/-- Claim C4: with a matching list of length `n` and a selector input parsing
as `k` with `1 <= k <= n`, delete removes exactly the `k`-th entry of the
displayed 1-based list — the resulting store is the original minus the one
entry keyed by that command (all and only the entries with a different key
remain) — and saves the store. -/
theorem delete_removes_selected (store : CommandStore) (pattern input : RStr) (k : Nat)
    (hnd : (store.commands.map Prod.fst).Nodup)
    (hk : parseUsize (rustTrim input) = some k) (h1 : 1 ≤ k)
    (h2 : k ≤ (search_logic pattern store).length) :
    delete_core pattern input store =
      .ok (⟨store.commands.filter
        (fun e => !(e.1 == (search_logic pattern store).getD (k - 1) []))⟩, true) ∧
    (store.commands.filter
        (fun e => e.1 == (search_logic pattern store).getD (k - 1) [])).length = 1 ∧
    ∀ e ∈ store.commands,
      (e ∈ store.commands.filter
          (fun e => !(e.1 == (search_logic pattern store).getD (k - 1) [])) ↔
        e.1 ≠ (search_logic pattern store).getD (k - 1) []) := by
  have hlt : k - 1 < (search_logic pattern store).length := by omega
  have hne : (search_logic pattern store).isEmpty = false := by
    rw [List.isEmpty_eq_false]
    intro hnil
    rw [hnil] at h2
    simp at h2
    omega
  have hku : usizeSub1 k = k - 1 := usizeSub1_of_pos h1 (parseUsize_lt hk)
  have hgetD : (search_logic pattern store).getD (k - 1) []
      = (search_logic pattern store).get ⟨k - 1, hlt⟩ := by
    simp [List.getD_eq_getElem?_getD, List.getElem?_eq_getElem hlt, List.get_eq_getElem]
  have hget : (search_logic pattern store)[usizeSub1 k]?
      = some ((search_logic pattern store).getD (k - 1) []) := by
    rw [hku, List.getElem?_eq_getElem hlt, hgetD, List.get_eq_getElem]
  have hdel : delete_core pattern input store =
      .ok (⟨store.commands.filter
        (fun e => !(e.1 == (search_logic pattern store).getD (k - 1) []))⟩, true) := by
    simp only [delete_core, hne, hk, hget, Bool.false_eq_true, if_false, if_pos h2]
  refine ⟨hdel, ?_, ?_⟩
  · have hmemsearch : (search_logic pattern store).getD (k - 1) []
        ∈ search_logic pattern store := by
      rw [hgetD, List.get_eq_getElem]
      exact List.getElem_mem hlt
    obtain ⟨d, hd⟩ := mem_search_logic hmemsearch
    have hkey : (search_logic pattern store).getD (k - 1) []
        ∈ store.commands.map Prod.fst := by
      exact List.mem_map_of_mem Prod.fst hd
    rw [← List.countP_eq_length_filter]
    exact countP_key_eq_one hnd hkey
  · intro e he
    simp [List.mem_filter, he]

/-- Witness for C4: two entries both match the pattern `x`; selector input
`2` removes exactly the second-listed entry. -/
theorem delete_removes_selected_witness :
    (((CommandStore.mk [("ax".data, "one".data), ("bx".data, "two".data)]).commands.map
        Prod.fst).Nodup ∧
      parseUsize (rustTrim "2".data) = some 2 ∧ 1 ≤ 2 ∧
      2 ≤ (search_logic "x".data
        (CommandStore.mk [("ax".data, "one".data), ("bx".data, "two".data)])).length) ∧
    (delete_core "x".data "2".data
        (CommandStore.mk [("ax".data, "one".data), ("bx".data, "two".data)]) =
      .ok (⟨(CommandStore.mk [("ax".data, "one".data),
          ("bx".data, "two".data)]).commands.filter
        (fun e => !(e.1 == (search_logic "x".data
          (CommandStore.mk [("ax".data, "one".data),
            ("bx".data, "two".data)])).getD (2 - 1) []))⟩, true) ∧
      ((CommandStore.mk [("ax".data, "one".data), ("bx".data, "two".data)]).commands.filter
        (fun e => e.1 == (search_logic "x".data
          (CommandStore.mk [("ax".data, "one".data),
            ("bx".data, "two".data)])).getD (2 - 1) [])).length = 1 ∧
      ∀ e ∈ (CommandStore.mk [("ax".data, "one".data), ("bx".data, "two".data)]).commands,
        (e ∈ (CommandStore.mk [("ax".data, "one".data),
            ("bx".data, "two".data)]).commands.filter
          (fun e => !(e.1 == (search_logic "x".data
            (CommandStore.mk [("ax".data, "one".data),
              ("bx".data, "two".data)])).getD (2 - 1) [])) ↔
          e.1 ≠ (search_logic "x".data
            (CommandStore.mk [("ax".data, "one".data),
              ("bx".data, "two".data)])).getD (2 - 1) [])) :=
  ⟨⟨by decide, by decide, by decide, by decide⟩,
    delete_removes_selected
      (CommandStore.mk [("ax".data, "one".data), ("bx".data, "two".data)])
      "x".data "2".data 2 (by decide) (by decide) (by decide) (by decide)⟩

/-! ### Claim C9 -/

/-- The head of a `dropWhile` result never satisfies the predicate. -/
theorem head?_dropWhile_eq_some {p : Char → Bool} {l : RStr} {c : Char}
    (h : (l.dropWhile p).head? = some c) : p c = false := by
  have hm := List.head?_dropWhile_not p l
  rw [h] at hm
  exact hm

/-- The trimmed string never starts with whitespace. -/
theorem rustTrim_head {s : RStr} {c : Char} (h : (rustTrim s).head? = some c) :
    isWS c = false := by
  unfold rustTrim at h
  rw [List.head?_reverse] at h
  obtain ⟨t, ht⟩ := List.dropWhile_suffix (l := (s.dropWhile isWS).reverse) isWS
  have h2 : ((s.dropWhile isWS).reverse).getLast? = some c := by
    rw [← ht, List.getLast?_append, h]
    rfl
  rw [List.getLast?_reverse] at h2
  exact head?_dropWhile_eq_some h2

/-- The trimmed string never ends with whitespace. -/
theorem rustTrim_last {s : RStr} {c : Char} (h : (rustTrim s).getLast? = some c) :
    isWS c = false := by
  unfold rustTrim at h
  rw [List.getLast?_reverse] at h
  exact head?_dropWhile_eq_some h

/-- A list whose head fails the predicate is untouched by `dropWhile`. -/
theorem dropWhile_eq_self_of_head {p : Char → Bool} {l : RStr}
    (h : ∀ c, l.head? = some c → p c = false) : l.dropWhile p = l := by
  cases l with
  | nil => rfl
  | cons a t =>
    have ha := h a rfl
    simp [List.dropWhile_cons, ha]

/-- Trimming is idempotent. -/
theorem rustTrim_idem (s : RStr) : rustTrim (rustTrim s) = rustTrim s := by
  have h1 : (rustTrim s).dropWhile isWS = rustTrim s :=
    dropWhile_eq_self_of_head (fun c hc => rustTrim_head hc)
  have h2 : (rustTrim s).reverse.dropWhile isWS = (rustTrim s).reverse :=
    dropWhile_eq_self_of_head (fun c hc => by
      rw [List.head?_reverse] at hc
      exact rustTrim_last hc)
  show (((rustTrim s).dropWhile isWS).reverse.dropWhile isWS).reverse = rustTrim s
  rw [h1, h2, List.reverse_reverse]

/-- Inserting a trimmed key and value preserves the all-entries-trimmed
invariant. -/
theorem insertKV_trimmed {m : List (RStr × RStr)} {kk vv : RStr}
    (hm : ∀ e ∈ m, rustTrim e.1 = e.1 ∧ rustTrim e.2 = e.2)
    (hk : rustTrim kk = kk) (hv : rustTrim vv = vv) :
    ∀ e ∈ insertKV m kk vv, rustTrim e.1 = e.1 ∧ rustTrim e.2 = e.2 := by
  intro e he
  unfold insertKV at he
  split at he
  · simp only [List.mem_map] at he
    obtain ⟨e0, he0, heq⟩ := he
    by_cases h0 : (e0.1 == kk) = true
    · rw [if_pos h0] at heq
      subst heq
      exact ⟨hk, hv⟩
    · rw [if_neg h0] at heq
      subst heq
      exact hm e0 he0
  · simp only [List.mem_append, List.mem_singleton] at he
    cases he with
    | inl h => exact hm e h
    | inr h =>
      subst h
      exact ⟨hk, hv⟩

/-- Claim C9: every command key and every description produced by the bulk
edit re-parse is already trimmed — the edited file's halves are trimmed
before insertion, so no entry carries leading or trailing whitespace. -/
theorem parseEditLines_trimmed (content : RStr) (k d : RStr)
    (h : (k, d) ∈ parseEditLines content) :
    rustTrim k = k ∧ rustTrim d = d := by
  suffices H : ∀ (ls : List RStr) (m : List (RStr × RStr)),
      (∀ e ∈ m, rustTrim e.1 = e.1 ∧ rustTrim e.2 = e.2) →
      ∀ e ∈ ls.foldl (fun m line =>
          match splitOnce (':' :: ':' :: ':' :: []) line with
          | some (cd, dd) => insertKV m (rustTrim cd) (rustTrim dd)
          | none => m) m,
        rustTrim e.1 = e.1 ∧ rustTrim e.2 = e.2 by
    exact H (rlines content) [] (by simp) (k, d) h
  intro ls
  induction ls with
  | nil =>
    intro m hm e he
    exact hm e he
  | cons line rest ih =>
    intro m hm e he
    rw [List.foldl_cons] at he
    refine ih _ ?_ e he
    cases hsp : splitOnce (':' :: ':' :: ':' :: []) line with
    | none => simpa [hsp] using hm
    | some pr =>
      obtain ⟨cd, dd⟩ := pr
      simp only [hsp]
      exact insertKV_trimmed hm (rustTrim_idem cd) (rustTrim_idem dd)

/-- Witness for C9: an edited line with surrounding whitespace around both
halves yields the trimmed entry, on which the theorem applies. -/
theorem parseEditLines_trimmed_witness :
    ("ls".data, "list stuff".data) ∈ parseEditLines "  ls  :::  list stuff  ".data ∧
    rustTrim "ls".data = "ls".data ∧ rustTrim "list stuff".data = "list stuff".data :=
  ⟨by decide,
    (parseEditLines_trimmed "  ls  :::  list stuff  ".data "ls".data "list stuff".data
      (by decide)).1,
    (parseEditLines_trimmed "  ls  :::  list stuff  ".data "ls".data "list stuff".data
      (by decide)).2⟩

/-! ### Claim C7: the save/load round-trip -/

/-- Hex digits print-parse round-trip. -/
theorem hexVal_hexDigit : ∀ m < 16, hexVal (hexDigit m) = some m := by decide

/-- The serializer's escape of one character is parsed back to exactly that
character, the parse continuing as the parse of the rest of the input. -/
theorem parseJString_escChar (c : Char) {t out r : RStr}
    (h : parseJString t = some (out, r)) :
    parseJString (escChar c ++ t) = some (c :: out, r) := by
  by_cases h1 : c = '\"'
  · subst h1
    show parseJString ('\\' :: '\"' :: t) = some ('\"' :: out, r)
    rw [parseJString.eq_def]
    simp [escCharInv, h]
  · by_cases h2 : c = '\\'
    · subst h2
      show parseJString ('\\' :: '\\' :: t) = some ('\\' :: out, r)
      rw [parseJString.eq_def]
      simp [escCharInv, h]
    · by_cases h3 : c.toNat < 0x20
      · by_cases h8 : c.toNat = 0x08
        · have hc : c = '\x08' := by
            have hh := Char.ofNat_toNat c
            rw [h8] at hh
            rw [← hh]
          subst hc
          show parseJString ('\\' :: 'b' :: t) = some ('\x08' :: out, r)
          rw [parseJString.eq_def]
          simp [escCharInv, h]
        · by_cases h9 : c.toNat = 0x09
          · have hc : c = '\x09' := by
              have hh := Char.ofNat_toNat c
              rw [h9] at hh
              rw [← hh]
            subst hc
            show parseJString ('\\' :: 't' :: t) = some ('\x09' :: out, r)
            rw [parseJString.eq_def]
            simp [escCharInv, h]
          · by_cases hA : c.toNat = 0x0A
            · have hc : c = '\n' := by
                have hh := Char.ofNat_toNat c
                rw [hA] at hh
                rw [← hh]
              subst hc
              show parseJString ('\\' :: 'n' :: t) = some ('\n' :: out, r)
              rw [parseJString.eq_def]
              simp [escCharInv, h]
            · by_cases hC : c.toNat = 0x0C
              · have hc : c = '\x0C' := by
                  have hh := Char.ofNat_toNat c
                  rw [hC] at hh
                  rw [← hh]
                subst hc
                show parseJString ('\\' :: 'f' :: t) = some ('\x0C' :: out, r)
                rw [parseJString.eq_def]
                simp [escCharInv, h]
              · by_cases hD : c.toNat = 0x0D
                · have hc : c = '\x0D' := by
                    have hh := Char.ofNat_toNat c
                    rw [hD] at hh
                    rw [← hh]
                  subst hc
                  show parseJString ('\\' :: 'r' :: t) = some ('\x0D' :: out, r)
                  rw [parseJString.eq_def]
                  simp [escCharInv, h]
                · have hesc : escChar c
                      = ['\\', 'u', '0', '0', hexDigit (c.toNat / 16),
                          hexDigit (c.toNat % 16)] := by
                    simp [escChar, h1, h2, h3, h8, h9, hA, hC, hD]
                  rw [hesc]
                  show parseJString ('\\' :: 'u' :: '0' :: '0'
                      :: hexDigit (c.toNat / 16) :: hexDigit (c.toNat % 16) :: t)
                    = some (c :: out, r)
                  rw [parseJString.eq_def]
                  have hv0 : hexVal '0' = some 0 := by decide
                  have hvh : hexVal (hexDigit (c.toNat / 16)) = some (c.toNat / 16) :=
                    hexVal_hexDigit _ (by omega)
                  have hvl : hexVal (hexDigit (c.toNat % 16)) = some (c.toNat % 16) :=
                    hexVal_hexDigit _ (by omega)
                  simp only [hv0, hvh, hvl, h]
                  simp [h]
                  refine ⟨by omega, ?_⟩
                  have hval : c.toNat / 16 * 16 + c.toNat % 16 = c.toNat := by omega
                  rw [hval, Char.ofNat_toNat]
      · have hesc : escChar c = [c] := by
          simp [escChar, h1, h2, h3]
        rw [hesc]
        show parseJString (c :: t) = some (c :: out, r)
        rw [parseJString.eq_def]
        simp [h1, h2, h3, h]

/-- A serialized string literal body followed by its closing quote parses back
to exactly the original string. -/
theorem parseJString_escStr (s rest : RStr) :
    parseJString (escStr s ++ '\"' :: rest) = some (s, rest) := by
  induction s with
  | nil =>
    show parseJString ('\"' :: rest) = some ([], rest)
    rw [parseJString.eq_def]
    simp
  | cons c s2 ih =>
    rw [escStr, List.append_assoc]
    exact parseJString_escChar c ih

/-- Two-space indent, as a character list. -/
theorem sdata2 : "  ".data = ' ' :: ' ' :: [] := rfl

/-- Four-space indent, as a character list. -/
theorem sdata4 : "    ".data = ' ' :: ' ' :: ' ' :: ' ' :: [] := rfl

/-- Skipping whitespace passes an initial non-whitespace character. -/
theorem skipWs_cons_neg {c : Char} (h : isJWS c = false) (t : RStr) :
    skipWs (c :: t) = c :: t := by
  simp [skipWs, List.dropWhile_cons, h]

/-- Skipping whitespace consumes an initial whitespace character. -/
theorem skipWs_cons_pos {c : Char} (h : isJWS c = true) (t : RStr) :
    skipWs (c :: t) = skipWs t := by
  simp [skipWs, List.dropWhile_cons, h]

/-- Each serialized member contributes at least one character. -/
theorem serMembersRest_length (es : List (RStr × RStr)) :
    es.length ≤ (serMembersRest es).length := by
  induction es with
  | nil => simp [serMembersRest]
  | cons e es2 ih =>
    simp [serMembersRest, sdata4]
    omega

/-- The serialized member stream — first member already positioned at its
opening quote, each later member preceded by a comma, a newline and the
level-2 indent, the stream closed by the object's closing brace — parses back
to exactly the member list, for any fuel above the number of members. -/
theorem parseMembersF_ser (es : List (RStr × RStr)) :
    ∀ (e : RStr × RStr) (rest : RStr) (fuel : Nat), es.length < fuel →
    parseMembersF fuel
        ('\"' :: (escStr e.1 ++ '\"' :: ':' :: ' ' :: '\"'
          :: (escStr e.2 ++ '\"' :: (serMembersRest es
            ++ '\n' :: ' ' :: ' ' :: '\x7d' :: rest))))
      = some (e :: es, rest) := by
  induction es with
  | nil =>
    intro e rest fuel hf
    cases fuel with
    | zero => omega
    | succ f =>
      rw [parseMembersF.eq_def]
      simp [serMembersRest, parseJString_escStr, skipWs_cons_pos, skipWs_cons_neg, isJWS]
  | cons e2 es2 ih =>
    intro e rest fuel hf
    cases fuel with
    | zero => omega
    | succ f =>
      have hshape : serMembersRest (e2 :: es2) ++ '\n' :: ' ' :: ' ' :: '\x7d' :: rest
          = ',' :: '\n' :: ' ' :: ' ' :: ' ' :: ' '
              :: '\"' :: (escStr e2.1 ++ '\"' :: ':' :: ' ' :: '\"'
                :: (escStr e2.2 ++ '\"' :: (serMembersRest es2
                  ++ '\n' :: ' ' :: ' ' :: '\x7d' :: rest))) := by
        simp [serMembersRest, serEntryBody, quoteStr, sdata4]
      rw [hshape]
      have hih := ih e2 rest f (by
        simp only [List.length_cons] at hf
        omega)
      rw [parseMembersF.eq_def]
      simp [parseJString_escStr, skipWs_cons_pos, skipWs_cons_neg, isJWS, hih]

/-- The serialized inner object parses back to exactly the member list. -/
theorem parseObjVal_ser (l : List (RStr × RStr)) (rest : RStr) :
    parseObjVal (serObjInner l ++ rest) = some (l, rest) := by
  cases l with
  | nil =>
    show parseObjVal ('\x7b' :: '\x7d' :: rest) = some ([], rest)
    rw [parseObjVal.eq_def]
    simp [skipWs_cons_neg, isJWS]
  | cons e es =>
    have hshape : serObjInner (e :: es) ++ rest
        = '\x7b' :: '\n' :: ' ' :: ' ' :: ' ' :: ' '
            :: '\"' :: (escStr e.1 ++ '\"' :: ':' :: ' ' :: '\"'
              :: (escStr e.2 ++ '\"' :: (serMembersRest es
                ++ '\n' :: ' ' :: ' ' :: '\x7d' :: rest))) := by
      simp [serObjInner, serEntryBody, quoteStr, sdata4, sdata2]
    rw [hshape]
    rw [parseObjVal.eq_def]
    simp [skipWs_cons_pos, skipWs_cons_neg, isJWS]
    refine parseMembersF_ser es e rest _ ?_
    have hm := serMembersRest_length es
    omega

/-- The full serialized document parses back to exactly the member list. -/
theorem parseStoreRaw_ser (l : List (RStr × RStr)) :
    parseStoreRaw (serializeStore ⟨l⟩) = some l := by
  have hshape : serializeStore ⟨l⟩
      = '\x7b' :: '\n' :: ' ' :: ' '
          :: '\"' :: (escStr "commands".data ++ '\"' :: ':' :: ' '
            :: (serObjInner l ++ '\n' :: '\x7d' :: [])) := by
    simp [serializeStore, quoteStr, sdata2]
  rw [hshape]
  rw [parseStoreRaw.eq_def]
  have hskipObj : skipWs (serObjInner l ++ '\n' :: '\x7d' :: [])
      = serObjInner l ++ '\n' :: '\x7d' :: [] := by
    cases l with
    | nil =>
      rw [serObjInner]
      simp only [List.cons_append, List.nil_append]
      rw [skipWs_cons_neg (by decide)]
    | cons e es =>
      rw [serObjInner]
      simp only [List.cons_append]
      rw [skipWs_cons_neg (by decide)]
  have hobj := parseObjVal_ser l ('\n' :: '\x7d' :: [])
  have hnil : skipWs ([] : RStr) = [] := rfl
  simp [parseJString_escStr, skipWs_cons_pos, skipWs_cons_neg, isJWS, hskipObj, hobj, hnil]

/-- Inserting the members of a list with fresh, pairwise-distinct keys into an
accumulator appends them in order. -/
theorem foldl_insertKV (l : List (RStr × RStr)) :
    ∀ acc : List (RStr × RStr),
      (∀ k, k ∈ acc.map Prod.fst → k ∉ l.map Prod.fst) →
      (l.map Prod.fst).Nodup →
      l.foldl (fun m e => insertKV m e.1 e.2) acc = acc ++ l := by
  induction l with
  | nil =>
    intro acc _ _
    simp
  | cons e es ih =>
    intro acc hdisj hnd
    simp only [List.map_cons, List.nodup_cons] at hnd
    obtain ⟨hhead, hnds⟩ := hnd
    simp only [List.foldl_cons]
    have hnotin : ¬(acc.any (fun x => x.1 == e.1)) = true := by
      simp only [List.any_eq_true, beq_iff_eq]
      rintro ⟨x, hx, hx1⟩
      exact hdisj e.1 (hx1 ▸ List.mem_map_of_mem Prod.fst hx) (by simp)
    have hins : insertKV acc e.1 e.2 = acc ++ [e] := by
      unfold insertKV
      rw [if_neg hnotin]
    rw [hins, ih (acc ++ [e]) ?_ hnds]
    · simp
    · intro k hk
      simp only [List.map_append, List.mem_append] at hk
      cases hk with
      | inl h =>
        intro hmem
        exact hdisj k h (by simp [hmem])
      | inr h =>
        simp at h
        intro hmem
        rw [h] at hmem
        exact hhead hmem

/-- Claim C7: saving any store with unique keys (arbitrary keys and
descriptions, empty descriptions and unicode text included) and loading the
saved file back yields exactly the original store. -/
theorem save_load_roundtrip (store : CommandStore)
    (hnd : (store.commands.map Prod.fst).Nodup) :
    load (save store) = .ok store := by
  obtain ⟨l⟩ := store
  have hp : parseStoreMap (serializeStore ⟨l⟩) = some l := by
    rw [parseStoreMap, parseStoreRaw_ser]
    show some (List.foldl (fun m e => insertKV m e.1 e.2) [] l) = some l
    rw [foldl_insertKV l [] (by simp) hnd]
    simp
  simp [load, save, hp]

/-- Witness for C7: a store with a unicode key, an empty description and a
unicode description round-trips. -/
theorem save_load_roundtrip_witness :
    ((CommandStore.mk [("echo ü ✓".data, ([] : RStr)),
        ("git \"s\"".data, "répo\n".data)]).commands.map Prod.fst).Nodup ∧
    load (save (CommandStore.mk [("echo ü ✓".data, ([] : RStr)),
        ("git \"s\"".data, "répo\n".data)])) =
      .ok (CommandStore.mk [("echo ü ✓".data, ([] : RStr)),
        ("git \"s\"".data, "répo\n".data)]) :=
  ⟨by decide,
    save_load_roundtrip (CommandStore.mk [("echo ü ✓".data, ([] : RStr)),
      ("git \"s\"".data, "répo\n".data)]) (by decide)⟩

end Keepc
